import Mathlib

/-!
Verification of the DeepSeek chat-log formatter

A shallow embedding, in Lean 4, of the conversion logic of
`src/formatter.js` (class `DeepSeekFormatter`), together with theorems
settling the specification's claims about it.

Modelling conventions, chosen once and used throughout:

* JavaScript strings are Lean `String`s (lists of characters; the UTF-16
  code-unit view of `substring` is abstracted to character counts).
* A JS object field that is only ever tested for truthiness and used as a
  string is modelled as a `String`, with `""` standing for all falsy
  values (`undefined`, `null`, `""`), because the code treats them
  identically.
* Timestamp fields (`updated_at`, `inserted_at`) are modelled as
  `Option Int` — the epoch-milliseconds value that
  `new Date(x).getTime()` yields — with `none` for absent fields.  The
  code only compares these numerically and formats them; string parsing
  is abstracted away, and formatting is modelled in UTC.
* The `mapping` argument of `extractMessages` may be `null`, a
  non-object, or an object; the object case is an association list with
  distinct keys, modelling the JS object's own enumerable properties.
* The unbounded `while` loop of `extractMessages` is modelled with
  explicit fuel.  Each fuel-consuming step visits a key present in the
  mapping, so fuel `mapping.length` suffices exactly when the chain of
  first children never revisits a node; the fuel-exhausted result `none`
  marks inputs on which the JS loop diverges.
* The regular-expression substitution passes of `formatContent` are
  reimplemented as character-list scanners that mirror the exact
  leftmost-match/advance-one-character behaviour of a global
  `String.replace`.  They carry fuel `length + 1`; every recursive call
  is on a strictly shorter suffix, so the fuel-exhausted branch (which
  returns the rest unchanged) is unreachable.
* `Array.prototype.sort` (stable since ES2019) is modelled by a stable
  insertion sort driven by the source's comparator: an element is placed
  before the first existing element `y` with `comparator x y < 0`.  For
  a consistent comparator the stable-sorted result is unique, so this is
  observationally the same as the engine's TimSort.
* Mutable `this.stats` is modelled by explicit state passing of a
  `Stats` record.
* Console output, CSS constants and the fixed HTML scaffold around the
  message blocks are not observable by any claim and are omitted; the
  message-block emission loop of `generateHTML` (labels, ordering,
  counter) is modelled precisely by `renderBlocks`.
-/

namespace DeepSeek

/-- A chat fragment: `{ type, content }`.  `""` models a missing/empty
(falsy) field, which the code treats identically. -/
structure Fragment where
  type : String
  content : String
deriving DecidableEq

/-- A message: `{ inserted_at, fragments }`.  `fragments = none` models a
missing or non-array `fragments` field. -/
structure Message where
  inserted_at : String
  fragments : Option (List Fragment)
deriving DecidableEq

/-- A mapping node: `{ message, children }`.  `message = none` models a
missing/null message; a missing `children` field is modelled by `[]`
(both make `node.children?.[0]`-style access yield nothing). -/
structure Node where
  message : Option Message
  children : List String
deriving DecidableEq

/-- The `mapping` value handed to `extractMessages`: `null`, some
non-object primitive, or an object (association list with distinct
keys). -/
inductive MappingInput where
  | null : MappingInput
  | nonObject : String → MappingInput
  | object : List (String × Node) → MappingInput
deriving DecidableEq

/-- A conversation record.  `title = ""` models a null/absent/empty
title (all falsy, treated identically by the code). -/
structure Conversation where
  id : String
  title : String
  inserted_at : Option Int
  updated_at : Option Int
  mapping : MappingInput
deriving DecidableEq

/-- The mutable `this.stats` record of the formatter. -/
structure Stats where
  totalConversations : Nat
  totalMessages : Nat
  processedFiles : Nat
  errors : Nat
deriving DecidableEq

/-! ## Message extractor (`extractMessages`, formatter.js lines 234-257) -/

/-- Model of `mapping[currentId]` — property lookup on the mapping object. -/
def lookupNode (m : List (String × Node)) (k : String) : Option Node :=
  match m.find? (fun p => p.1 == k) with
  | some p => some p.2
  | none => none

/-- Model of `mapping.root?.children?.[0]` — the starting node id of the
traversal. -/
def rootStart (m : List (String × Node)) : Option String :=
  match lookupNode m "root" with
  | some n => n.children.head?
  | none => none

/-- The `while (currentId && mapping[currentId])` loop of
`extractMessages`, with explicit fuel.  The loop-exit condition is
tested before fuel is consumed, so `none` is returned exactly when
`fuel` consuming steps were made and the loop would still continue —
the divergence marker.  `acc` collects messages in reverse. -/
def extractLoop (m : List (String × Node)) :
    Nat → Option String → List Message → Option (List Message)
  | fuel, curr, acc =>
    match curr with
    | none => some acc.reverse
    | some cid =>
      if cid = "" then some acc.reverse
      else
        match lookupNode m cid with
        | none => some acc.reverse
        | some node =>
          match fuel with
          | 0 => none
          | Nat.succ f =>
            let acc2 := match node.message with
              | some msg => msg :: acc
              | none => acc
            extractLoop m f node.children.head? acc2

/-- Model of `extractMessages(mapping)`.  The guard
`!mapping || typeof mapping !== 'object'` returns `[]` for `null` and
non-objects.  For objects the loop runs with fuel `m.length`, which
suffices whenever the first-child chain never revisits a node;
`none` marks mappings on which the JS loop diverges. -/
def extractMessages : MappingInput → Option (List Message)
  | MappingInput.null => some []
  | MappingInput.nonObject _ => some []
  | MappingInput.object m => extractLoop m m.length (rootStart m) []

/-- The node ids at which `extractLoop` performs a fuel-consuming step
(i.e. the visited chain of first children), up to `fuel` entries. -/
def chainVisited (m : List (String × Node)) : Nat → Option String → List String
  | fuel, curr =>
    match curr with
    | none => []
    | some cid =>
      if cid = "" then []
      else
        match lookupNode m cid with
        | none => []
        | some node =>
          match fuel with
          | 0 => []
          | Nat.succ f => cid :: chainVisited m f node.children.head?

/-! ## Basic facts about the extractor -/

theorem lookupNode_cons (p : String × Node) (rest : List (String × Node))
    (key : String) :
    lookupNode (p :: rest) key = if p.1 = key then some p.2 else lookupNode rest key := by
  by_cases h : p.1 = key
  · unfold lookupNode
    rw [List.find?_cons_of_pos]
    · simp [h]
    · simp [h]
  · unfold lookupNode
    rw [List.find?_cons_of_neg]
    · simp [h, lookupNode]
    · simp [h]

theorem lookupNode_mem {m : List (String × Node)} {k : String} {n : Node}
    (h : lookupNode m k = some n) : k ∈ m.map Prod.fst := by
  induction m with
  | nil => simp [lookupNode] at h
  | cons p rest ih =>
    rw [lookupNode_cons] at h
    by_cases hp : p.1 = k
    · subst hp; simp
    · rw [if_neg hp] at h
      simp only [List.map_cons]
      exact List.mem_cons_of_mem _ (ih h)

theorem chainVisited_subset_keys (m : List (String × Node)) :
    ∀ (fuel : Nat) (curr : Option String),
      ∀ x ∈ chainVisited m fuel curr, x ∈ m.map Prod.fst := by
  intro fuel
  induction fuel with
  | zero =>
    intro curr x hx
    unfold chainVisited at hx
    cases curr with
    | none => simp at hx
    | some cid =>
      by_cases hc : cid = ""
      · simp [hc] at hx
      · cases hl : lookupNode m cid with
        | none => simp [hc, hl] at hx
        | some node => simp [hc, hl] at hx
  | succ f ih =>
    intro curr x hx
    unfold chainVisited at hx
    cases curr with
    | none => simp at hx
    | some cid =>
      by_cases hc : cid = ""
      · simp [hc] at hx
      · cases hl : lookupNode m cid with
        | none => simp [hc, hl] at hx
        | some node =>
          simp only [hc, hl, if_neg hc] at hx
          rcases List.mem_cons.mp hx with h | h
          · subst h; exact lookupNode_mem hl
          · exact ih _ x h

theorem extractLoop_none_chain_length (m : List (String × Node)) :
    ∀ (fuel : Nat) (curr : Option String) (acc : List Message),
      extractLoop m fuel curr acc = none →
      (chainVisited m (fuel + 1) curr).length = fuel + 1 := by
  intro fuel
  induction fuel with
  | zero =>
    intro curr acc h
    unfold extractLoop at h
    cases curr with
    | none => simp at h
    | some cid =>
      by_cases hc : cid = ""
      · simp [hc] at h
      · cases hl : lookupNode m cid with
        | none => simp [hc, hl] at h
        | some node =>
          unfold chainVisited
          simp only [if_neg hc, hl]
          unfold chainVisited
          cases hnext : node.children.head? with
          | none => simp
          | some nid =>
            by_cases hn : nid = ""
            · simp [hn]
            · cases hl2 : lookupNode m nid with
              | none => simp [hn, hl2]
              | some node2 => simp [hn, hl2]
  | succ f ih =>
    intro curr acc h
    unfold extractLoop at h
    cases curr with
    | none => simp at h
    | some cid =>
      by_cases hc : cid = ""
      · simp [hc] at h
      · cases hl : lookupNode m cid with
        | none => simp [hc, hl] at h
        | some node =>
          simp only [if_neg hc, hl] at h
          have := ih node.children.head? _ h
          unfold chainVisited
          simp only [if_neg hc, hl, List.length_cons]
          omega

theorem extractLoop_exit_none (m : List (String × Node)) (f : Nat)
    (acc : List Message) : extractLoop m f none acc = some acc.reverse := by
  unfold extractLoop
  rfl

theorem extractLoop_step (m : List (String × Node)) (f : Nat) (cid : String)
    (acc : List Message) (node : Node)
    (hc : cid ≠ "") (hl : lookupNode m cid = some node) :
    extractLoop m (f + 1) (some cid) acc =
      extractLoop m f node.children.head?
        (match node.message with
          | some msg => msg :: acc
          | none => acc) := by
  conv_lhs => unfold extractLoop
  simp [hc, hl]

/-- Claim C9.  `extractMessages` on the empty object `{}` (no `root`
entry), on `null`, and on any non-object value returns the empty
sequence without raising. -/
theorem c9_extract_empty_and_malformed :
    extractMessages (MappingInput.object []) = some []
    ∧ extractMessages MappingInput.null = some []
    ∧ ∀ s : String, extractMessages (MappingInput.nonObject s) = some [] := by
  refine ⟨rfl, rfl, fun s => rfl⟩

/-- The message recorded in the mapping for a visited node id, when
present — `mapping[cid].message`. -/
def nodeMessageOf (m : List (String × Node)) (cid : String) : Option Message :=
  match lookupNode m cid with
  | some node => node.message
  | none => none

theorem chainVisited_step (m : List (String × Node)) (f : Nat) (cid : String)
    (node : Node) (hc : cid ≠ "") (hl : lookupNode m cid = some node) :
    chainVisited m (f + 1) (some cid)
      = cid :: chainVisited m f node.children.head? := by
  conv_lhs => unfold chainVisited
  simp [hc, hl]

theorem extractLoop_eq_chain_messages (m : List (String × Node)) :
    ∀ (fuel : Nat) (curr : Option String) (acc l : List Message),
      extractLoop m fuel curr acc = some l →
      l = acc.reverse
        ++ (chainVisited m fuel curr).filterMap (nodeMessageOf m) := by
  intro fuel
  induction fuel with
  | zero =>
    intro curr acc l h
    unfold extractLoop at h
    cases curr with
    | none =>
      simp at h
      subst h
      simp [chainVisited]
    | some cid =>
      by_cases hc : cid = ""
      · simp [hc] at h
        subst h
        simp [chainVisited, hc]
      · cases hl : lookupNode m cid with
        | none =>
          simp [hc, hl] at h
          subst h
          simp [chainVisited, hc, hl]
        | some node =>
          simp [hc, hl] at h
  | succ f ih =>
    intro curr acc l h
    unfold extractLoop at h
    cases curr with
    | none =>
      simp at h
      subst h
      simp [chainVisited]
    | some cid =>
      by_cases hc : cid = ""
      · simp [hc] at h
        subst h
        simp [chainVisited, hc]
      · cases hl : lookupNode m cid with
        | none =>
          simp [hc, hl] at h
          subst h
          simp [chainVisited, hc, hl]
        | some node =>
          simp only [if_neg hc, hl] at h
          cases hm : node.message with
          | none =>
            simp only [hm] at h
            have hrec := ih node.children.head? acc l h
            rw [hrec, chainVisited_step m f cid node hc hl]
            simp [List.filterMap_cons, nodeMessageOf, hl, hm]
          | some msg =>
            simp only [hm] at h
            have hrec := ih node.children.head? (msg :: acc) l h
            rw [hrec, chainVisited_step m f cid node hc hl]
            simp [List.filterMap_cons, nodeMessageOf, hl, hm,
              List.reverse_cons, List.append_assoc]

/-- Claim C1.  For every mapping on which the traversal terminates,
`extractMessages` returns exactly the messages (when present) of the
nodes along the chain of first children starting at
`root.children[0]`, in visit order; in particular, a mapping
`root.children = [a]`, `a = {message: M1, children: [b]}`,
`b = {message: M2, children: []}` (ids nonempty, distinct, and distinct
from `"root"`) yields `[M1, M2]`; and on a mapping with multi-child and
message-less nodes only the first children are followed and absent
messages are skipped. -/
theorem c1_extract_chain :
    (∀ (m : List (String × Node)) (l : List Message),
        extractMessages (MappingInput.object m) = some l →
        l = (chainVisited m m.length (rootStart m)).filterMap (nodeMessageOf m))
    ∧ (∀ (a b : String) (M1 M2 : Message),
        a ≠ "" → b ≠ "" → a ≠ b → a ≠ "root" → b ≠ "root" →
        extractMessages (MappingInput.object
          [("root", ⟨none, [a]⟩), (a, ⟨some M1, [b]⟩), (b, ⟨some M2, []⟩)])
          = some [M1, M2])
    ∧ extractMessages (MappingInput.object
        [("root", ⟨none, ["A", "Z"]⟩),
         ("A", ⟨none, ["B", "Z"]⟩),
         ("B", ⟨some ⟨"t2", none⟩, []⟩),
         ("Z", ⟨some ⟨"tz", none⟩, ["Z"]⟩)])
        = some [⟨"t2", none⟩] := by
  refine ⟨?_, ?_, by decide⟩
  · intro m l h
    have := extractLoop_eq_chain_messages m m.length (rootStart m) [] l h
    simpa using this
  · intro a b M1 M2 ha hb hab har hbr
    have hra : ¬ ("root" : String) = a := fun h => har h.symm
    have hrb : ¬ ("root" : String) = b := fun h => hbr h.symm
    have h1 : lookupNode
        [("root", Node.mk none [a]), (a, Node.mk (some M1) [b]), (b, Node.mk (some M2) [])]
        "root" = some (Node.mk none [a]) := by
      rw [lookupNode_cons, if_pos rfl]
    have h2 : lookupNode
        [("root", Node.mk none [a]), (a, Node.mk (some M1) [b]), (b, Node.mk (some M2) [])]
        a = some (Node.mk (some M1) [b]) := by
      rw [lookupNode_cons, if_neg hra, lookupNode_cons, if_pos rfl]
    have h3 : lookupNode
        [("root", Node.mk none [a]), (a, Node.mk (some M1) [b]), (b, Node.mk (some M2) [])]
        b = some (Node.mk (some M2) []) := by
      rw [lookupNode_cons, if_neg hrb, lookupNode_cons, if_neg hab, lookupNode_cons, if_pos rfl]
    have hstart : rootStart
        [("root", Node.mk none [a]), (a, Node.mk (some M1) [b]), (b, Node.mk (some M2) [])]
        = some a := by
      unfold rootStart
      rw [h1]
      rfl
    show extractLoop
        [("root", Node.mk none [a]), (a, Node.mk (some M1) [b]), (b, Node.mk (some M2) [])]
        (2 + 1)
        (rootStart
          [("root", Node.mk none [a]), (a, Node.mk (some M1) [b]), (b, Node.mk (some M2) [])])
        [] = some [M1, M2]
    rw [hstart]
    rw [extractLoop_step _ 2 a [] (Node.mk (some M1) [b]) ha h2]
    show extractLoop
        [("root", Node.mk none [a]), (a, Node.mk (some M1) [b]), (b, Node.mk (some M2) [])]
        (1 + 1) (some b) [M1] = some [M1, M2]
    rw [extractLoop_step _ 1 b [M1] (Node.mk (some M2) []) hb h3]
    show extractLoop
        [("root", Node.mk none [a]), (a, Node.mk (some M1) [b]), (b, Node.mk (some M2) [])]
        1 none [M2, M1] = some [M1, M2]
    rw [extractLoop_exit_none]
    rfl

/-- Witness for C1: the universal chain characterisation instantiated
at the concrete three-node mapping, and the parametric instance at
concrete node ids and messages. -/
theorem c1_extract_chain_witness :
    ([⟨"t1", none⟩, ⟨"t2", none⟩] : List Message)
      = (chainVisited
          [("root", ⟨none, ["A"]⟩),
           ("A", ⟨some ⟨"t1", none⟩, ["B"]⟩),
           ("B", ⟨some ⟨"t2", none⟩, []⟩)]
          (List.length
            [(("root" : String), (⟨none, ["A"]⟩ : Node)),
             ("A", ⟨some ⟨"t1", none⟩, ["B"]⟩),
             ("B", ⟨some ⟨"t2", none⟩, []⟩)])
          (rootStart
            [("root", ⟨none, ["A"]⟩),
             ("A", ⟨some ⟨"t1", none⟩, ["B"]⟩),
             ("B", ⟨some ⟨"t2", none⟩, []⟩)])).filterMap
          (nodeMessageOf
            [("root", ⟨none, ["A"]⟩),
             ("A", ⟨some ⟨"t1", none⟩, ["B"]⟩),
             ("B", ⟨some ⟨"t2", none⟩, []⟩)])
    ∧ extractMessages (MappingInput.object
        [("root", ⟨none, ["A"]⟩),
         ("A", ⟨some ⟨"t1", none⟩, ["B"]⟩),
         ("B", ⟨some ⟨"t2", none⟩, []⟩)])
        = some [⟨"t1", none⟩, ⟨"t2", none⟩] :=
  ⟨c1_extract_chain.1
      [("root", ⟨none, ["A"]⟩),
       ("A", ⟨some ⟨"t1", none⟩, ["B"]⟩),
       ("B", ⟨some ⟨"t2", none⟩, []⟩)]
      [⟨"t1", none⟩, ⟨"t2", none⟩] (by decide),
   c1_extract_chain.2.1 "A" "B" ⟨"t1", none⟩ ⟨"t2", none⟩
      (by decide) (by decide) (by decide) (by decide) (by decide)⟩

/-- Claim C7.  If the mapping's keys are distinct (a JS object) and the
chain of first children starting at `root.children[0]` never revisits a
node id — formalised as: the visited chain, cut off after
`mapping.length + 1` entries, has no duplicate — then the
`extractMessages` loop terminates within one fuel unit per mapping
entry (the fuel-exhaustion marker `none` is not hit).  Nothing is
claimed for a cyclic chain. -/
theorem c7_extract_terminates_acyclic (m : List (String × Node))
    (hchain : (chainVisited m (m.length + 1) (rootStart m)).Nodup) :
    extractMessages (MappingInput.object m) ≠ none := by
  intro hdiv
  have hlen : (chainVisited m (m.length + 1) (rootStart m)).length = m.length + 1 :=
    extractLoop_none_chain_length m m.length (rootStart m) [] hdiv
  have hsub : chainVisited m (m.length + 1) (rootStart m) ⊆ m.map Prod.fst :=
    fun x hx => chainVisited_subset_keys m (m.length + 1) (rootStart m) x hx
  have hle : (chainVisited m (m.length + 1) (rootStart m)).length ≤ (m.map Prod.fst).length :=
    (hchain.subperm hsub).length_le
  rw [hlen, List.length_map] at hle
  omega

/-- Witness for C7: a two-node acyclic chain terminates. -/
theorem c7_extract_terminates_acyclic_witness :
    extractMessages (MappingInput.object
      [("root", ⟨none, ["A"]⟩),
       ("A", ⟨some ⟨"t1", none⟩, ["B"]⟩),
       ("B", ⟨some ⟨"t2", none⟩, []⟩)]) ≠ none :=
  c7_extract_terminates_acyclic _ (by decide)

/-! ## Sorting (`sortConversationsByDate`, formatter.js lines 72-96) -/

/-- Model of `a.updated_at || a.inserted_at` — the date used as sort key. -/
def dateOf (c : Conversation) : Option Int :=
  match c.updated_at with
  | some t => some t
  | none => c.inserted_at

/-- The comparator passed to `Array.prototype.sort`: 0 for two undated
conversations, an undated conversation sorts after a dated one, and two
dated ones compare by `timeB - timeA` (descending by time). -/
def compareConv (a b : Conversation) : Int :=
  match dateOf a, dateOf b with
  | none, none => 0
  | none, some _ => 1
  | some _, none => -1
  | some ta, some tb => tb - ta

/-- Stable insertion driven by the comparator: `x` goes before the first
element `y` with `compareConv x y < 0`, exactly the position a stable
comparator sort gives it. -/
def insertByDate (x : Conversation) : List Conversation → List Conversation
  | [] => [x]
  | y :: ys => if compareConv x y < 0 then x :: y :: ys else y :: insertByDate x ys

/-- Model of `sortConversationsByDate` — stable sort by the comparator above.
`Array.prototype.sort` is stable (ES2019), and for this comparator
(a total preorder) the stable-sorted result is unique, so insertion
sort models it exactly. -/
def sortConversationsByDate (l : List Conversation) : List Conversation :=
  l.foldl (fun acc x => insertByDate x acc) []

/-- The order the sorted output satisfies between adjacent-or-later
elements: earlier elements never compare strictly after later ones. -/
def convLE (a b : Conversation) : Prop := compareConv a b ≤ 0

theorem compareConv_neg (a b : Conversation) :
    compareConv b a = -compareConv a b := by
  unfold compareConv
  cases dateOf a <;> cases dateOf b <;> simp

theorem convLE_trans {a b c : Conversation} (h1 : convLE a b) (h2 : convLE b c) :
    convLE a c := by
  unfold convLE compareConv at *
  cases ha : dateOf a <;> cases hb : dateOf b <;> cases hc : dateOf c <;>
    simp [ha, hb, hc] at * <;> omega

theorem convLE_of_not_lt {a b : Conversation} (h : ¬ compareConv a b < 0) :
    convLE b a := by
  unfold convLE
  rw [compareConv_neg]
  omega

theorem mem_insertByDate {z x : Conversation} :
    ∀ {l : List Conversation}, z ∈ insertByDate x l → z = x ∨ z ∈ l := by
  intro l
  induction l with
  | nil => intro h; simpa [insertByDate] using h
  | cons y ys ih =>
    intro h
    unfold insertByDate at h
    by_cases hc : compareConv x y < 0
    · rw [if_pos hc] at h
      rcases List.mem_cons.mp h with h | h
      · exact Or.inl h
      · exact Or.inr h
    · rw [if_neg hc] at h
      rcases List.mem_cons.mp h with h | h
      · exact Or.inr (h ▸ List.mem_cons_self y ys)
      · rcases ih h with h | h
        · exact Or.inl h
        · exact Or.inr (List.mem_cons_of_mem y h)

theorem insertByDate_pairwise (x : Conversation) :
    ∀ {l : List Conversation}, l.Pairwise convLE →
      (insertByDate x l).Pairwise convLE := by
  intro l
  induction l with
  | nil => intro _; simpa [insertByDate] using List.pairwise_singleton convLE x
  | cons y ys ih =>
    intro h
    rcases List.pairwise_cons.mp h with ⟨hy, hys⟩
    unfold insertByDate
    by_cases hc : compareConv x y < 0
    · rw [if_pos hc]
      refine List.pairwise_cons.mpr ⟨?_, h⟩
      intro z hz
      rcases List.mem_cons.mp hz with hz | hz
      · subst hz; exact le_of_lt hc
      · exact convLE_trans (le_of_lt hc) (hy z hz)
    · rw [if_neg hc]
      refine List.pairwise_cons.mpr ⟨?_, ih hys⟩
      intro z hz
      rcases mem_insertByDate hz with hz | hz
      · subst hz; exact convLE_of_not_lt hc
      · exact hy z hz

theorem sortConversationsByDate_pairwise (l : List Conversation) :
    (sortConversationsByDate l).Pairwise convLE := by
  unfold sortConversationsByDate
  suffices h : ∀ (l acc : List Conversation), acc.Pairwise convLE →
      (l.foldl (fun acc x => insertByDate x acc) acc).Pairwise convLE by
    exact h l [] List.Pairwise.nil
  intro l
  induction l with
  | nil => intro acc h; exact h
  | cons x xs ih =>
    intro acc h
    exact ih _ (insertByDate_pairwise x h)

theorem insertByDate_undated {x : Conversation} (hx : dateOf x = none) :
    ∀ (l : List Conversation), insertByDate x l = l ++ [x] := by
  intro l
  induction l with
  | nil => rfl
  | cons y ys ih =>
    unfold insertByDate
    have hc : ¬ compareConv x y < 0 := by
      unfold compareConv
      rw [hx]
      cases dateOf y <;> simp
    rw [if_neg hc, ih]
    rfl

theorem filter_insertByDate_dated {x : Conversation}
    (hx : (dateOf x).isNone = false) :
    ∀ (l : List Conversation),
      (insertByDate x l).filter (fun c => (dateOf c).isNone)
        = l.filter (fun c => (dateOf c).isNone) := by
  intro l
  induction l with
  | nil => simp [insertByDate, hx]
  | cons y ys ih =>
    unfold insertByDate
    by_cases hc : compareConv x y < 0
    · rw [if_pos hc]
      simp [List.filter_cons, hx]
    · rw [if_neg hc]
      simp only [List.filter_cons, ih]

theorem sortConversationsByDate_filter_undated (l : List Conversation) :
    (sortConversationsByDate l).filter (fun c => (dateOf c).isNone)
      = l.filter (fun c => (dateOf c).isNone) := by
  unfold sortConversationsByDate
  suffices h : ∀ (l acc : List Conversation),
      ((l.foldl (fun acc x => insertByDate x acc) acc).filter
        (fun c => (dateOf c).isNone))
      = acc.filter (fun c => (dateOf c).isNone)
        ++ l.filter (fun c => (dateOf c).isNone) by
    simpa using h l []
  intro l
  induction l with
  | nil => intro acc; simp
  | cons x xs ih =>
    intro acc
    show ((xs.foldl (fun acc x => insertByDate x acc) (insertByDate x acc)).filter
        (fun c => (dateOf c).isNone)) = _
    rw [ih (insertByDate x acc)]
    by_cases hx : (dateOf x).isNone
    · have hnone : dateOf x = none := Option.isNone_iff_eq_none.mp hx
      rw [insertByDate_undated hnone acc]
      rw [List.filter_append]
      simp [List.filter_cons, hx, List.append_assoc]
    · have hx' : (dateOf x).isNone = false := by
        cases h : (dateOf x).isNone
        · rfl
        · exact absurd h hx
      rw [filter_insertByDate_dated hx' acc]
      simp [List.filter_cons, hx']

/-- Claim C2.  After `sortConversationsByDate`: (1) a dated conversation
with a strictly later date appears at a strictly earlier position than
any dated conversation with an earlier date; (2) every undated
conversation (no `updated_at` and no `inserted_at`) appears after every
dated one; (3) the undated conversations keep their original relative
order among themselves. -/
theorem c2_sort_by_date (l : List Conversation) :
    (∀ (i j : Fin (sortConversationsByDate l).length) (ta tb : Int),
        dateOf ((sortConversationsByDate l).get i) = some ta →
        dateOf ((sortConversationsByDate l).get j) = some tb →
        tb < ta → (i : Nat) < (j : Nat))
    ∧ (∀ (i j : Fin (sortConversationsByDate l).length),
        dateOf ((sortConversationsByDate l).get i) = none →
        dateOf ((sortConversationsByDate l).get j) ≠ none →
        (j : Nat) < (i : Nat))
    ∧ (sortConversationsByDate l).filter (fun c => (dateOf c).isNone)
        = l.filter (fun c => (dateOf c).isNone) := by
  have hp := sortConversationsByDate_pairwise l
  rw [List.pairwise_iff_get] at hp
  refine ⟨?_, ?_, sortConversationsByDate_filter_undated l⟩
  · intro i j ta tb hi hj hlt
    rcases Nat.lt_trichotomy (i : Nat) (j : Nat) with h | h | h
    · exact h
    · exfalso
      have : i = j := Fin.ext h
      subst this
      rw [hi] at hj
      have : ta = tb := by injection hj
      omega
    · exfalso
      have hji : j < i := h
      have := hp j i hji
      unfold convLE compareConv at this
      rw [hi, hj] at this
      simp only [] at this
      omega
  · intro i j hi hj
    rcases Nat.lt_trichotomy (j : Nat) (i : Nat) with h | h | h
    · exact h
    · exfalso
      have : j = i := Fin.ext h
      subst this
      exact hj hi
    · exfalso
      have hij : i < j := h
      have := hp i j hij
      unfold convLE compareConv at this
      rw [hi] at this
      cases hdj : dateOf ((sortConversationsByDate l).get j) with
      | none => exact hj hdj
      | some tb =>
        rw [hdj] at this
        simp only [] at this
        omega

/-- Witness for C2 on a concrete mixed collection: the conversation
dated 9 (position 0) precedes the one dated 5 (position 1), and the
two undated ones keep their original order at the end. -/
theorem c2_sort_by_date_witness :
    ((0 : Nat) < 1
    ∧ (sortConversationsByDate
        [⟨"u1", "", none, none, MappingInput.null⟩,
         ⟨"d1", "", some 5, none, MappingInput.null⟩,
         ⟨"u2", "", none, none, MappingInput.null⟩,
         ⟨"d2", "", none, some 9, MappingInput.null⟩]).filter
          (fun c => (dateOf c).isNone)
        = [⟨"u1", "", none, none, MappingInput.null⟩,
           ⟨"u2", "", none, none, MappingInput.null⟩]) :=
  ⟨(c2_sort_by_date
      [⟨"u1", "", none, none, MappingInput.null⟩,
       ⟨"d1", "", some 5, none, MappingInput.null⟩,
       ⟨"u2", "", none, none, MappingInput.null⟩,
       ⟨"d2", "", none, some 9, MappingInput.null⟩]).1
      ⟨0, by decide⟩ ⟨1, by decide⟩ 9 5 (by decide) (by decide) (by decide),
   (c2_sort_by_date _).2.2.trans (by decide)⟩

/-! ## Text renderer (`escapeHtml` / `formatContent`, formatter.js
lines 259-299 and 712-725)

Each global regex replace of the source is reimplemented as a scanner
over the character list that tries a match at the current position,
emits the replacement and resumes after the match on success, and
otherwise emits one character and retries at the next position — the
exact semantics of `String.replace(.../g)`.  Scanners carry fuel
`length + 1`; every recursive call is on a strictly shorter suffix, so
the fuel-exhausted branch is unreachable. -/

/-- The five-entry escape map of `escapeHtml`. -/
def escapeChar (c : Char) : List Char :=
  if c = '&' then "&amp;".data
  else if c = '<' then "&lt;".data
  else if c = '>' then "&gt;".data
  else if c = '"' then "&quot;".data
  else if c = Char.ofNat 39 then "&#039;".data
  else [c]

/-- Model of `escapeHtml(text)` — `text.replace(/[&<>"']/g, m => map[m])`.
The falsy/non-string guard returns `""`, which coincides with the
map on the empty string. -/
def escapeHtml (s : String) : String := String.mk (s.data.flatMap escapeChar)

/-- JS `String.prototype.trim` on a character list. -/
def trimChars (l : List Char) : List Char :=
  ((l.dropWhile Char.isWhitespace).reverse.dropWhile Char.isWhitespace).reverse

/-- Split around the first occurrence of `pat` (a leftmost regex
match): `some (before, after)` with `before ++ pat ++ after = l`. -/
def splitFirstAt (pat : List Char) : List Char → Option (List Char × List Char)
  | [] => none
  | c :: rest =>
    if pat.isPrefixOf (c :: rest) then some ([], (c :: rest).drop pat.length)
    else
      match splitFirstAt pat rest with
      | some (b, a) => some (c :: b, a)
      | none => none

/-- Split around the last occurrence of `pat` (a greedy `.*` followed
by `pat`): `some (before, after)` with `before ++ pat ++ after = l`. -/
def splitLastAt (pat : List Char) : List Char → Option (List Char × List Char)
  | [] => none
  | c :: rest =>
    match splitLastAt pat rest with
    | some (b, a) => some (c :: b, a)
    | none =>
      if pat.isPrefixOf (c :: rest) then some ([], (c :: rest).drop pat.length)
      else none

/-- JS regex `\w`. -/
def wordChar (c : Char) : Bool := c.isAlphanum || c = '_'

/-- Pass 1 — ```` /```(\w+)?\n([\s\S]*?)```/g ```` replaced by
`<pre><code>` + `escapeHtml(code.trim())` + `</code></pre>`; the
language tag is discarded; the lazy body ends at the first closing
fence. -/
def fenceF : Nat → List Char → List Char
  | 0, l => l
  | _ + 1, [] => []
  | f + 1, c :: rest =>
    if ("```".data).isPrefixOf (c :: rest) then
      let afterTicks := (c :: rest).drop 3
      let afterLang := afterTicks.dropWhile wordChar
      match afterLang with
      | '\n' :: body0 =>
        match splitFirstAt ("```".data) body0 with
        | some (code, after) =>
          "<pre><code>".data ++ (escapeHtml (String.mk (trimChars code))).data
            ++ "</code></pre>".data ++ fenceF f after
        | none => c :: fenceF f rest
      | _ => c :: fenceF f rest
    else c :: fenceF f rest

/-- Pass 2 — ``/`([^`]+)`/g`` replaced by `<code>$1</code>`. -/
def inlineCodeF : Nat → List Char → List Char
  | 0, l => l
  | _ + 1, [] => []
  | f + 1, c :: rest =>
    if c = '`' then
      match splitFirstAt ['`'] rest with
      | some (body, after) =>
        if body.isEmpty then c :: inlineCodeF f rest
        else "<code>".data ++ body ++ "</code>".data ++ inlineCodeF f after
      | none => c :: inlineCodeF f rest
    else c :: inlineCodeF f rest

/-- Model of `String.splitOn "\n"` on character lists (the line structure that
the `m`-flagged regexes operate on). -/
def splitLinesAux : List Char → List Char → List (List Char)
  | [], acc => [acc.reverse]
  | c :: rest, acc =>
    if c = '\n' then acc.reverse :: splitLinesAux rest []
    else splitLinesAux rest (c :: acc)

/-- Model of `String.intercalate "\n"` on character lists. -/
def joinLines : List (List Char) → List Char
  | [] => []
  | [x] => x
  | x :: y :: rest => x ++ '\n' :: joinLines (y :: rest)

/-- One line of `/^PRE(.+)$/gm → TAGO$1TAGC`: the anchors and `.`
confine the match to a single line, and `(.+)` needs at least one
character after the prefix. -/
def linePrefixTag (pre tagO tagC : List Char) (line : List Char) : List Char :=
  if pre.isPrefixOf line && decide (pre.length < line.length) then
    tagO ++ line.drop pre.length ++ tagC
  else line

/-- A whole `/^PRE(.+)$/gm` replace: line-split, rewrite each line,
re-join (passes 3-5 with `### / ## / #`, and pass 6 with `- `). -/
def headerPass (pre tagO tagC : List Char) (l : List Char) : List Char :=
  joinLines ((splitLinesAux l []).map (linePrefixTag pre tagO tagC))

/-- Pass 7 — `/\*\*([^*]+)\*\*/g` replaced by `<strong>$1</strong>`. -/
def boldF : Nat → List Char → List Char
  | 0, l => l
  | _ + 1, [] => []
  | f + 1, c :: rest =>
    if ("**".data).isPrefixOf (c :: rest) then
      let afterOpen := rest.drop 1
      let body := afterOpen.takeWhile (fun ch => ch != '*')
      let after1 := afterOpen.drop body.length
      if body.isEmpty then c :: boldF f rest
      else if ("**".data).isPrefixOf after1 then
        "<strong>".data ++ body ++ "</strong>".data ++ boldF f (after1.drop 2)
      else c :: boldF f rest
    else c :: boldF f rest

/-- Pass 8 — `/\*([^*]+)\*/g` replaced by `<em>$1</em>`. -/
def italicF : Nat → List Char → List Char
  | 0, l => l
  | _ + 1, [] => []
  | f + 1, c :: rest =>
    if c = '*' then
      let body := rest.takeWhile (fun ch => ch != '*')
      let after1 := rest.drop body.length
      match after1 with
      | '*' :: after =>
        if body.isEmpty then c :: italicF f rest
        else "<em>".data ++ body ++ "</em>".data ++ italicF f after
      | _ => c :: italicF f rest
    else c :: italicF f rest

/-- One iteration of the group in `/(<li>.*<\/li>\n?)+/g`: at the
current position the text must start with `<li>`; `.*` (which cannot
cross a newline) is greedy, so the iteration extends to the *last*
`</li>` on the current line. -/
def liRunOnce (l : List Char) : Option (List Char × List Char) :=
  if ("<li>".data).isPrefixOf l then
    let seg := l.takeWhile (fun ch => ch != '\n')
    let rest := l.drop seg.length
    match splitLastAt ("</li>".data) seg with
    | some (b, _) => some (b ++ "</li>".data, (seg.drop (b.length + 5)) ++ rest)
    | none => none
  else none

/-- The `+` of `/(<li>.*<\/li>\n?)+/g`: repeat iterations, each
optionally consuming one trailing newline (greedily — nothing follows
the group, so the newline stays consumed even before a failing next
iteration). -/
def liRun : Nat → List Char → Option (List Char × List Char)
  | 0, _ => none
  | f + 1, l =>
    match liRunOnce l with
    | none => none
    | some (m1, r1) =>
      match r1 with
      | '\n' :: r =>
        match liRun f r with
        | some (m3, r3) => some ((m1 ++ ['\n']) ++ m3, r3)
        | none => some (m1 ++ ['\n'], r)
      | _ =>
        match liRun f r1 with
        | some (m3, r3) => some (m1 ++ m3, r3)
        | none => some (m1, r1)

/-- Pass 9 — `/(<li>.*<\/li>\n?)+/g` replaced by `<ul>$&</ul>`. -/
def ulScanF : Nat → List Char → List Char
  | 0, l => l
  | _ + 1, [] => []
  | f + 1, c :: rest =>
    match liRun ((c :: rest).length + 1) (c :: rest) with
    | some (m, r) => "<ul>".data ++ m ++ "</ul>".data ++ ulScanF f r
    | none => c :: ulScanF f rest

/-- Pass 10 — `/\[([^\]]+)\]\(([^)]+)\)/g` replaced by
`<a href="$2" target="_blank">$1</a>`. -/
def linksF : Nat → List Char → List Char
  | 0, l => l
  | _ + 1, [] => []
  | f + 1, c :: rest =>
    if c = '[' then
      match splitFirstAt [']'] rest with
      | some (lab, r1) =>
        if lab.isEmpty then c :: linksF f rest
        else
          match r1 with
          | '(' :: r2 =>
            match splitFirstAt [')'] r2 with
            | some (url, r3) =>
              if url.isEmpty then c :: linksF f rest
              else
                "<a href=\"".data ++ url ++ "\" target=\"_blank\">".data
                  ++ lab ++ "</a>".data ++ linksF f r3
            | none => c :: linksF f rest
          | _ => c :: linksF f rest
      | none => c :: linksF f rest
    else c :: linksF f rest

/-- The eleven substitution passes of `formatContent`, in source
order, applied after `escapeHtml` (pass 11 replaces `\n` by `<br>`). -/
def substitutionPasses (s : String) : String :=
  let l1 := fenceF (s.data.length + 1) s.data
  let l2 := inlineCodeF (l1.length + 1) l1
  let l3 := headerPass "### ".data "<h4>".data "</h4>".data l2
  let l4 := headerPass "## ".data "<h3>".data "</h3>".data l3
  let l5 := headerPass "# ".data "<h2>".data "</h2>".data l4
  let l6 := boldF (l5.length + 1) l5
  let l7 := italicF (l6.length + 1) l6
  let l8 := headerPass "- ".data "<li>".data "</li>".data l7
  let l9 := ulScanF (l8.length + 1) l8
  let l10 := linksF (l9.length + 1) l9
  String.mk (l10.flatMap (fun c => if c = '\n' then "<br>".data else [c]))

/-- Model of `formatContent(content)`: falsy/non-string content renders as `""`,
otherwise `escapeHtml` first, then the substitution chain. -/
def formatContent (s : String) : String :=
  if s = "" then "" else substitutionPasses (escapeHtml s)

/-- Decidable substring test (used to state "the output contains"). -/
def listContains (pat : List Char) : List Char → Bool
  | [] => pat.isPrefixOf []
  | c :: rest => pat.isPrefixOf (c :: rest) || listContains pat rest

theorem escapeChar_no_angle (a c : Char) (hc : c ∈ escapeChar a) :
    c ≠ '<' ∧ c ≠ '>' := by
  unfold escapeChar at hc
  by_cases h1 : a = '&'
  · rw [if_pos h1] at hc
    exact (by decide : ∀ x ∈ "&amp;".data, x ≠ '<' ∧ x ≠ '>') c hc
  · rw [if_neg h1] at hc
    by_cases h2 : a = '<'
    · rw [if_pos h2] at hc
      exact (by decide : ∀ x ∈ "&lt;".data, x ≠ '<' ∧ x ≠ '>') c hc
    · rw [if_neg h2] at hc
      by_cases h3 : a = '>'
      · rw [if_pos h3] at hc
        exact (by decide : ∀ x ∈ "&gt;".data, x ≠ '<' ∧ x ≠ '>') c hc
      · rw [if_neg h3] at hc
        by_cases h4 : a = '"'
        · rw [if_pos h4] at hc
          exact (by decide : ∀ x ∈ "&quot;".data, x ≠ '<' ∧ x ≠ '>') c hc
        · rw [if_neg h4] at hc
          by_cases h5 : a = Char.ofNat 39
          · rw [if_pos h5] at hc
            exact (by decide : ∀ x ∈ "&#039;".data, x ≠ '<' ∧ x ≠ '>') c hc
          · rw [if_neg h5] at hc
            have hca : c = a := by simpa using hc
            subst hca
            exact ⟨h2, h3⟩

/-- Claim C4.  `formatContent` escapes first and substitutes afterwards:
it factors (for every input) through `substitutionPasses ∘ escapeHtml`;
the escaped intermediate contains no `<` or `>` at all, so no angle
bracket originating from the input survives into (or out of) the
substitution stage unescaped; and on `"**bold** and `code`"` the result
wraps `bold` in a `<strong>` element and `code` in a `<code>`
element. -/
theorem c4_format_escapes_then_substitutes :
    (∀ s : String, formatContent s = substitutionPasses (escapeHtml s))
    ∧ (∀ s : String, ∀ c ∈ (escapeHtml s).data, c ≠ '<' ∧ c ≠ '>')
    ∧ formatContent "**bold** and `code`"
        = "<strong>bold</strong> and <code>code</code>"
    ∧ listContains "<strong>bold</strong>".data
        (formatContent "**bold** and `code`").data = true
    ∧ listContains "<code>code</code>".data
        (formatContent "**bold** and `code`").data = true := by
  refine ⟨?_, ?_, by decide, by decide, by decide⟩
  · intro s
    unfold formatContent
    by_cases h : s = ""
    · rw [if_pos h, h]
      decide
    · rw [if_neg h]
  · intro s c hc
    have hm : c ∈ s.data.flatMap escapeChar := by
      simpa [escapeHtml] using hc
    rcases List.mem_flatMap.mp hm with ⟨a, _, hca⟩
    exact escapeChar_no_angle a c hca

/-- Witness for C4: the escaped form of `"<>"` contains no angle
bracket (instantiating the universally quantified part at a concrete
input). -/
theorem c4_format_escapes_witness : ('&' : Char) ≠ '<' ∧ ('&' : Char) ≠ '>' :=
  c4_format_escapes_then_substitutes.2.1 "<>" '&' (by decide)

/-! ## Filename sanitizer (`sanitizeFilename`, formatter.js lines
727-737) -/

/-- The character class `[<>:"/\\|?*]` of `sanitizeFilename`. -/
def specialFileChar (c : Char) : Bool :=
  c = '<' || c = '>' || c = ':' || c = '"' || c = '/' || c = '\\'
    || c = '|' || c = '?' || c = '*'

/-- Whitespace collapse `/\s+/g → '_'`, one character at a time: the flag records whether
the previous character was whitespace, so each maximal whitespace run
contributes exactly one `'_'` (at its first character). -/
def collapseWSAux : Bool → List Char → List Char
  | _, [] => []
  | prevWs, c :: rest =>
    if c.isWhitespace then
      (if prevWs then [] else ['_']) ++ collapseWSAux true rest
    else c :: collapseWSAux false rest

/-- Whitespace collapse `/\s+/g → '_'`: each maximal whitespace run becomes one `'_'`. -/
def collapseWS (l : List Char) : List Char := collapseWSAux false l

/-- Model of `sanitizeFilename(filename)`: falsy/non-string → `"untitled"`;
otherwise replace the special characters by `'_'`, collapse whitespace
runs to `'_'`, truncate to 50 characters, and trim. -/
def sanitizeFilename (s : String) : String :=
  if s = "" then "untitled"
  else String.mk (trimChars
    ((collapseWS (s.data.map (fun c => if specialFileChar c then '_' else c))).take 50))

theorem trimChars_length_le (l : List Char) : (trimChars l).length ≤ l.length := by
  unfold trimChars
  have h1 := (List.dropWhile_sublist (l := l) Char.isWhitespace).length_le
  have h2 := (List.dropWhile_sublist
    (l := (l.dropWhile Char.isWhitespace).reverse) Char.isWhitespace).length_le
  simp only [List.length_reverse] at *
  omega

theorem trimChars_subset {l : List Char} {c : Char} (h : c ∈ trimChars l) :
    c ∈ l := by
  unfold trimChars at h
  rw [List.mem_reverse] at h
  have h2 := (List.dropWhile_sublist Char.isWhitespace).subset h
  rw [List.mem_reverse] at h2
  exact (List.dropWhile_sublist Char.isWhitespace).subset h2

theorem collapseWSAux_chars : ∀ (l : List Char) (b : Bool),
    ∀ c ∈ collapseWSAux b l,
      c.isWhitespace = false ∧ (c = '_' ∨ c ∈ l) := by
  intro l
  induction l with
  | nil =>
    intro b c hc
    simp [collapseWSAux] at hc
  | cons a rest ih =>
    intro b c hc
    unfold collapseWSAux at hc
    by_cases hw : a.isWhitespace
    · rw [if_pos hw] at hc
      rcases List.mem_append.mp hc with h | h
      · cases b with
        | true => simp at h
        | false =>
          have hcu : c = '_' := by simpa using h
          subst hcu
          exact ⟨by decide, Or.inl rfl⟩
      · rcases ih true c h with ⟨h1, h2⟩
        exact ⟨h1, h2.imp id (List.mem_cons_of_mem a)⟩
    · rw [if_neg hw] at hc
      rcases List.mem_cons.mp hc with h | h
      · subst h
        exact ⟨by simpa using hw, Or.inr (List.mem_cons_self _ _)⟩
      · rcases ih false c h with ⟨h1, h2⟩
        exact ⟨h1, h2.imp id (List.mem_cons_of_mem a)⟩

/-- Claim C8.  `sanitizeFilename` always returns at most 50 characters;
its output contains no character of the replaced class `[<>:"/\\|?*]`
and no whitespace (every whitespace run having been collapsed into an
underscore); concretely, a title with `/`, `:` and extra whitespace
collapses to underscores, and a 60-character title is cut to 50. -/
theorem c8_sanitizeFilename_safe :
    (∀ s : String, (sanitizeFilename s).length ≤ 50
      ∧ ∀ c ∈ (sanitizeFilename s).data,
          specialFileChar c = false ∧ c.isWhitespace = false)
    ∧ sanitizeFilename "a/b: c   d" = "a_b__c_d"
    ∧ sanitizeFilename (String.mk (List.replicate 60 'a'))
        = String.mk (List.replicate 50 'a') := by
  refine ⟨?_, by decide, by decide⟩
  intro s
  unfold sanitizeFilename
  by_cases h : s = ""
  · rw [if_pos h]
    exact ⟨by decide, by decide⟩
  · rw [if_neg h]
    constructor
    · show (trimChars _).length ≤ 50
      have h1 := trimChars_length_le
        ((collapseWS (s.data.map (fun c => if specialFileChar c then '_' else c))).take 50)
      have h2 := List.length_take 50
        (collapseWS (s.data.map (fun c => if specialFileChar c then '_' else c)))
      omega
    · intro c hc
      have h1 : c ∈ collapseWS (s.data.map (fun c => if specialFileChar c then '_' else c)) :=
        (List.take_sublist 50 _).subset (trimChars_subset hc)
      rcases collapseWSAux_chars _ false c h1 with ⟨hws, hor⟩
      refine ⟨?_, hws⟩
      rcases hor with h2 | h2
      · subst h2
        decide
      · rcases List.mem_map.mp h2 with ⟨x, _, hx⟩
        subst hx
        by_cases hs : specialFileChar x
        · rw [if_pos hs]
          decide
        · rw [if_neg hs]
          simpa using hs

/-- Witness for C8 at a concrete title containing `/`, `:` and runs of
whitespace. -/
theorem c8_sanitizeFilename_safe_witness :
    (sanitizeFilename "a/b: c   d").length ≤ 50
    ∧ specialFileChar 'a' = false ∧ ('a' : Char).isWhitespace = false :=
  ⟨(c8_sanitizeFilename_safe.1 "a/b: c   d").1,
   (c8_sanitizeFilename_safe.1 "a/b: c   d").2 'a' (by decide)⟩

/-! ## Conversation renderer (`generateHTML`, formatter.js lines
144-232)

The fixed HTML scaffold (head, CSS, header, footer) carries no
observable content for the claims; what is modelled is the message
emission loop (lines 185-211): which fragments produce a visual block,
with which `Request n`/`Response n` label, in which order — together
with the `stats.totalMessages` update (line 147). -/

/-- One emitted `chat-message` block: its CSS class
(request/response), its `<h2>` header text, and its rendered
content. -/
structure Block where
  isRequest : Bool
  header : String
  content : String
deriving DecidableEq

/-- The inner fragment loop of `generateHTML` (lines 188-209): a
fragment is emitted only if `fragment && fragment.type &&
fragment.content` are truthy; the label uses the shared counter, which
is incremented (after emission) only for `REQUEST` fragments.  Returns
the blocks and the final counter value. -/
def fragBlocks : List Fragment → Nat → List Block × Nat
  | [], n => ([], n)
  | f :: fs, n =>
    if f.type != "" && f.content != "" then
      ((⟨f.type == "REQUEST",
          (if f.type == "REQUEST" then "Request " else "Response ") ++ toString n,
          formatContent f.content⟩ : Block)
          :: (fragBlocks fs (if f.type == "REQUEST" then n + 1 else n)).1,
        (fragBlocks fs (if f.type == "REQUEST" then n + 1 else n)).2)
    else fragBlocks fs n

/-- The outer message loop of `generateHTML` (lines 186-211): a message
contributes fragments only if `message && message.fragments &&
Array.isArray(message.fragments)`; the counter is threaded through. -/
def renderBlocks : List Message → Nat → List Block × Nat
  | [], n => ([], n)
  | m :: ms, n =>
    match m.fragments with
    | some frs =>
      ((fragBlocks frs n).1 ++ (renderBlocks ms (fragBlocks frs n).2).1,
        (renderBlocks ms (fragBlocks frs n).2).2)
    | none => renderBlocks ms n

/-- The `try` body of `generateHTML`: extract the messages (divergence
of the extractor propagates as `none`), add their count to
`stats.totalMessages`, and emit the blocks with the counter starting
at 1 (`let messageNumber = 1`). -/
def generateHTML (c : Conversation) (stats : Stats) : Option (Stats × List Block) :=
  match extractMessages c.mapping with
  | none => none
  | some msgs =>
    some (⟨stats.totalConversations, stats.totalMessages + msgs.length,
            stats.processedFiles, stats.errors⟩,
          (renderBlocks msgs 1).1)

/-- The error-page body built by the `catch` of `generateHTML`
(line 230). -/
def errorPage (msg : String) : String :=
  "<html><body><h1>Error processing conversation</h1><p>" ++ msg
    ++ "</p></body></html>"

/-- The `catch` clause of `generateHTML` (lines 228-231): when the
rendering body raises an exception with message `msg`, the clause logs,
returns the error page, and performs no other state change — in
particular `this.stats` (and so `stats.errors`) is left untouched. -/
def generateHTMLCatch (stats : Stats) (msg : String) : Stats × String :=
  (stats, errorPage msg)

/-! ## Filenames and orchestration (`processConversation` lines 98-130,
`generateSummary` lines 439-474, `generateIndexHTML` lines 476-555) -/

/-- Model of `(index + 1).toString().padStart(3, '0')`. -/
def pad3 (n : Nat) : String :=
  let s := toString n
  String.mk (List.replicate (3 - s.length) '0' ++ s.data)

/-- Zero-pad an integer to `w` characters. -/
def padNum (w : Nat) (n : Int) : String :=
  let s := toString n
  if s.length < w then String.mk (List.replicate (w - s.length) '0' ++ s.data)
  else s

/-- Proleptic-Gregorian civil date from days since the epoch
(1970-01-01), the standard era-based algorithm; models
`format(date, 'yyyy-MM-dd')` in UTC. -/
def civilFromDays (z0 : Int) : Int × Int × Int :=
  let z := z0 + 719468
  let era := Int.fdiv z 146097
  let doe := z - era * 146097
  let yoe := Int.fdiv (doe - Int.fdiv doe 1460 + Int.fdiv doe 36524 - Int.fdiv doe 146096) 365
  let y := yoe + era * 400
  let doy := doe - (365 * yoe + Int.fdiv yoe 4 - Int.fdiv yoe 100)
  let mp := Int.fdiv (5 * doy + 2) 153
  let d := doy - Int.fdiv (153 * mp + 2) 5 + 1
  let m := mp + (if mp < 10 then 3 else -9)
  (if m ≤ 2 then y + 1 else y, m, d)

/-- Format `yyyy-MM-dd` from epoch milliseconds. -/
def formatYMD (t : Int) : String :=
  let ymd := civilFromDays (Int.fdiv t 86400000)
  padNum 4 ymd.1 ++ "-" ++ padNum 2 ymd.2.1 ++ "-" ++ padNum 2 ymd.2.2

/-- Model of the source's `getDatePrefix(conversation)` (lines 132-142): format
`updated_at || inserted_at` as `yyyy-MM-dd`, or `"nodate"` when both
are absent (or formatting fails). -/
def datePrefixOf (c : Conversation) : String :=
  match dateOf c with
  | none => "nodate"
  | some t => formatYMD t

/-- The filename under which `processConversation` writes the document
(lines 101-107): note the *zero-padded* ordinal inside the synthesized
fallback title `conversation-${fileNumber}`. -/
def processFileName (c : Conversation) (i : Nat) : String :=
  datePrefixOf c ++ "-" ++ pad3 (i + 1) ++ "-"
    ++ sanitizeFilename (if c.title != "" then c.title
        else "conversation-" ++ pad3 (i + 1))
    ++ ".html"

/-- The `file` field recorded by `generateSummary` (line 454): note the
*unpadded* ordinal inside the fallback title `conversation-${i + 1}`. -/
def summaryFileName (c : Conversation) (i : Nat) : String :=
  datePrefixOf c ++ "-" ++ pad3 (i + 1) ++ "-"
    ++ sanitizeFilename (if c.title != "" then c.title
        else "conversation-" ++ toString (i + 1))
    ++ ".html"

/-- The link target used by `generateIndexHTML` (line 516), same
expression as the summary's. -/
def indexFileName (c : Conversation) (i : Nat) : String :=
  datePrefixOf c ++ "-" ++ pad3 (i + 1) ++ "-"
    ++ sanitizeFilename (if c.title != "" then c.title
        else "conversation-" ++ toString (i + 1))
    ++ ".html"

/-- Model of `processConversation(conversation, index)` (lines 98-130) as a
state transformer.  `writeOk` models whether the `fs.writeFile` call
succeeds; on success `processedFiles` is incremented and the file
(name, blocks) is written, on failure the `catch` (lines 123-129)
increments `errors` and nothing is written.  `none` propagates the
divergence of a cyclic mapping. -/
def processConversation (c : Conversation) (i : Nat) (stats : Stats)
    (writeOk : Bool) : Option (Stats × Option (String × List Block)) :=
  match generateHTML c stats with
  | none => none
  | some (stats2, blocks) =>
    if writeOk then
      some (⟨stats2.totalConversations, stats2.totalMessages,
              stats2.processedFiles + 1, stats2.errors⟩,
            some (processFileName c i, blocks))
    else
      some (⟨stats2.totalConversations, stats2.totalMessages,
              stats2.processedFiles, stats2.errors + 1⟩, none)

/-- Number of request-typed blocks in a list. -/
def countRequests (bs : List Block) : Nat :=
  (bs.filter (fun b => b.isRequest)).length

theorem fragBlocks_snd (frs : List Fragment) : ∀ n : Nat,
    (fragBlocks frs n).2 = n + countRequests (fragBlocks frs n).1 := by
  induction frs with
  | nil => intro n; simp [fragBlocks, countRequests]
  | cons f fs ih =>
    intro n
    by_cases hc : (f.type != "" && f.content != "") = true
    · by_cases hr : (f.type == "REQUEST") = true
      · simp only [fragBlocks, if_pos hc, hr, if_true, countRequests,
          List.filter_cons]
        simp only [countRequests] at ih
        rw [ih (n + 1)]
        simp only [List.length_cons]
        omega
      · have hr2 : (f.type == "REQUEST") = false := by simpa using hr
        simp only [fragBlocks, if_pos hc, hr2, Bool.false_eq_true, if_false,
          countRequests, List.filter_cons]
        simp only [countRequests] at ih
        rw [ih n]
    · simp only [fragBlocks, if_neg hc]
      exact ih n

theorem fragBlocks_headers (frs : List Fragment) :
    ∀ (n : Nat) (pre post : List Block) (b : Block),
      (fragBlocks frs n).1 = pre ++ b :: post →
      b.header = (if b.isRequest then "Request " else "Response ")
        ++ toString (n + countRequests pre) := by
  induction frs with
  | nil =>
    intro n pre post b h
    simp [fragBlocks] at h
  | cons f fs ih =>
    intro n pre post b h
    by_cases hc : (f.type != "" && f.content != "") = true
    · simp only [fragBlocks, if_pos hc] at h
      cases pre with
      | nil =>
        simp only [List.nil_append] at h
        injection h with hb hrest
        subst hb
        simp [countRequests]
      | cons p pre2 =>
        simp only [List.cons_append] at h
        injection h with hp hrest
        have hIH := ih _ pre2 post b hrest
        rw [hIH]
        congr 2
        subst hp
        by_cases hr : (f.type == "REQUEST") = true
        · simp [hr, countRequests, List.filter_cons]
          omega
        · simp [hr, countRequests, List.filter_cons]
    · simp only [fragBlocks, if_neg hc] at h
      exact ih n pre post b h

theorem renderBlocks_headers (msgs : List Message) :
    ∀ (n : Nat) (pre post : List Block) (b : Block),
      (renderBlocks msgs n).1 = pre ++ b :: post →
      b.header = (if b.isRequest then "Request " else "Response ")
        ++ toString (n + countRequests pre) := by
  induction msgs with
  | nil =>
    intro n pre post b h
    simp [renderBlocks] at h
  | cons m ms ih =>
    intro n pre post b h
    cases hf : m.fragments with
    | none =>
      simp only [renderBlocks, hf] at h
      exact ih n pre post b h
    | some frs =>
      simp only [renderBlocks, hf] at h
      rcases List.append_eq_append_iff.mp h with ⟨mid, hpre, hmid⟩ | ⟨mid, hA, hmid⟩
      · -- b lies in the tail produced by the remaining messages
        have hIH := ih _ mid post b hmid
        rw [hIH, fragBlocks_snd]
        congr 2
        subst hpre
        simp [countRequests, List.filter_append]
        omega
      · -- b lies in this message's blocks, unless mid is empty
        cases mid with
        | nil =>
          simp only [List.append_nil] at hA
          rcases (by simpa using hmid : b :: post = (renderBlocks ms (fragBlocks frs n).2).1)
            with hmid2
          have hIH := ih _ [] post b hmid2.symm
          rw [hIH, fragBlocks_snd]
          congr 2
          subst hA
          simp [countRequests]
        | cons q mid2 =>
          rcases (by simpa using hmid : b = q ∧ post = mid2 ++ (renderBlocks ms (fragBlocks frs n).2).1)
            with ⟨hbq, _⟩
          subst hbq
          exact fragBlocks_headers frs n pre mid2 b hA

/-- Claim C3, amended.  Every emitted block is labeled `Request n` when
its fragment is `REQUEST`-typed and `Response n` otherwise, where `n`
is one shared counter that starts at 1 and is incremented immediately
after each emitted request fragment — so `n` equals 1 plus the number
of request blocks emitted strictly before the block.  Consequently the
message `[{type:"REQUEST", content:"Hi"}, {type:"OTHER",
content:"Hello"}]` renders as `Request 1` followed by `Response 2`
(not `Response 1`: the increment happens before the response is
emitted). -/
theorem c3_amended_block_labels :
    (∀ (msgs : List Message) (pre post : List Block) (b : Block),
        (renderBlocks msgs 1).1 = pre ++ b :: post →
        b.header = (if b.isRequest then "Request " else "Response ")
          ++ toString (1 + countRequests pre))
    ∧ ((renderBlocks [⟨"t", some [⟨"REQUEST", "Hi"⟩, ⟨"OTHER", "Hello"⟩]⟩] 1).1).map
        Block.header = ["Request 1", "Response 2"] :=
  ⟨fun msgs => renderBlocks_headers msgs 1, by decide⟩

/-- Witness for C3's amended statement: applying it to the two-fragment
example, the second block (one request precedes it) is labeled with
counter value 2. -/
theorem c3_amended_block_labels_witness :
    (⟨false, "Response 2", formatContent "Hello"⟩ : Block).header
      = (if (⟨false, "Response 2", formatContent "Hello"⟩ : Block).isRequest
          then "Request " else "Response ")
        ++ toString (1 + countRequests [⟨true, "Request 1", formatContent "Hi"⟩]) :=
  c3_amended_block_labels.1 [⟨"t", some [⟨"REQUEST", "Hi"⟩, ⟨"OTHER", "Hello"⟩]⟩]
    [⟨true, "Request 1", formatContent "Hi"⟩] []
    ⟨false, "Response 2", formatContent "Hello"⟩ (by decide)

/-- Claim C3, counterexample.  The claim's example output
`["Request 1", "Response 1"]` is not what the code produces on
`[{type:"REQUEST", content:"Hi"}, {type:"OTHER", content:"Hello"}]`:
the counter is incremented right after the request, so the second
block reads `Response 2`. -/
theorem c3_claim_counterexample :
    ((renderBlocks [⟨"t", some [⟨"REQUEST", "Hi"⟩, ⟨"OTHER", "Hello"⟩]⟩] 1).1).map
        Block.header ≠ ["Request 1", "Response 1"] := by
  decide

/-- Claim C10.  A fragment is emitted only when both `type` and `content`
are truthy: the block/counter computation is unchanged by dropping all
non-truthy fragments, and a skipped fragment — even a `REQUEST`-typed
one with empty content, or one with content but no type — produces no
block and leaves the counter untouched. -/
theorem c10_fragment_truthiness_guard :
    (∀ (frs : List Fragment) (n : Nat),
        fragBlocks frs n
          = fragBlocks (frs.filter (fun f => f.type != "" && f.content != "")) n)
    ∧ (∀ n : Nat, fragBlocks [⟨"REQUEST", ""⟩] n = ([], n))
    ∧ (∀ n : Nat, fragBlocks [⟨"", "Hello"⟩] n = ([], n)) := by
  refine ⟨?_, fun n => rfl, fun n => rfl⟩
  intro frs
  induction frs with
  | nil => intro n; rfl
  | cons f fs ih =>
    intro n
    by_cases hc : (f.type != "" && f.content != "") = true
    · simp only [List.filter_cons, hc, if_true]
      simp only [fragBlocks, if_pos hc]
      rw [ih]
    · have hc2 : (f.type != "" && f.content != "") = false := by simpa using hc
      simp only [List.filter_cons, hc2, Bool.false_eq_true, if_false]
      simp only [fragBlocks, if_neg hc]
      exact ih n

theorem isPrefixOf_self_append (p s : List Char) :
    p.isPrefixOf (p ++ s) = true := by
  induction p with
  | nil => simp [List.isPrefixOf]
  | cons a as ih => simp [List.isPrefixOf, ih]

theorem listContains_append_middle (pre pat suf : List Char) :
    listContains pat (pre ++ (pat ++ suf)) = true := by
  induction pre with
  | nil =>
    simp only [List.nil_append]
    cases hps : pat ++ suf with
    | nil =>
      have hp : pat = [] := (List.append_eq_nil.mp hps).1
      subst hp
      simp [listContains, List.isPrefixOf]
    | cons c rest =>
      show (pat.isPrefixOf (c :: rest) || listContains pat rest) = true
      rw [← hps, isPrefixOf_self_append]
      simp
  | cons x pre2 ih =>
    show listContains pat ((x :: pre2) ++ (pat ++ suf)) = true
    rw [List.cons_append]
    show (pat.isPrefixOf (x :: (pre2 ++ (pat ++ suf)))
      || listContains pat (pre2 ++ (pat ++ suf))) = true
    rw [ih]
    simp

/-- Claim C5, counterexample.  For an untitled conversation at index 0
the document is written as `nodate-001-conversation-001.html` (the
fallback title uses the zero-padded `fileNumber`) while `summary.json`
and `index.html` record `nodate-001-conversation-1.html` (unpadded
`i + 1`): the recorded filename does not match the written one. -/
theorem c5_claim_counterexample :
    processFileName ⟨"id0", "", none, none, MappingInput.null⟩ 0
      ≠ summaryFileName ⟨"id0", "", none, none, MappingInput.null⟩ 0 := by
  decide

/-- Claim C5, amended.  For every conversation with a truthy (nonempty)
title, the filename written by `processConversation` and the filenames
recorded in `summary.json` and linked from `index.html` agree — same
date prefix, same zero-padded ordinal, same sanitized slug.  (For
untitled conversations the synthesized fallback titles differ:
`conversation-${fileNumber}` zero-padded versus `conversation-${i+1}`
unpadded, see the counterexample.) -/
theorem c5_amended_filename_agreement (c : Conversation) (i : Nat)
    (h : c.title ≠ "") :
    processFileName c i = summaryFileName c i
    ∧ summaryFileName c i = indexFileName c i := by
  have hb : (c.title != "") = true := bne_iff_ne.mpr h
  unfold processFileName summaryFileName indexFileName
  rw [hb]
  simp

/-- Witness for C5's amended statement at a concrete titled
conversation. -/
theorem c5_amended_filename_agreement_witness :
    processFileName ⟨"id1", "My chat", none, none, MappingInput.null⟩ 4
      = summaryFileName ⟨"id1", "My chat", none, none, MappingInput.null⟩ 4 :=
  (c5_amended_filename_agreement _ 4 (by decide)).1

/-- Claim C6, amended.  (1) A conversation whose `mapping` is `null`
still yields a successfully written, message-less document
(`extractMessages` returns `[]`, so no blocks), increments
`processedFiles`, and leaves `stats.errors` unchanged.  (2) A rendering
exception inside `generateHTML` is converted by its `catch` into an
error-page body containing the exception's message, and this path
*also leaves `stats.errors` unchanged* — contrary to the claim, the
error counter is incremented only when `processConversation`'s own step
(e.g. the file write) throws, case (3), in which nothing is written. -/
theorem c6_amended_error_paths :
    (∀ (c : Conversation) (i : Nat) (st : Stats),
        c.mapping = MappingInput.null →
        processConversation c i st true
          = some (⟨st.totalConversations, st.totalMessages,
                    st.processedFiles + 1, st.errors⟩,
                  some (processFileName c i, [])))
    ∧ (∀ (st : Stats) (msg : String),
        (generateHTMLCatch st msg).1 = st
        ∧ listContains msg.data ((generateHTMLCatch st msg).2).data = true)
    ∧ (∀ (c : Conversation) (i : Nat) (st : Stats),
        c.mapping = MappingInput.null →
        processConversation c i st false
          = some (⟨st.totalConversations, st.totalMessages,
                    st.processedFiles, st.errors + 1⟩, none)) := by
  refine ⟨?_, ?_, ?_⟩
  · intro c i st hmap
    simp [processConversation, generateHTML, hmap, extractMessages, renderBlocks]
  · intro st msg
    refine ⟨rfl, ?_⟩
    show listContains msg.data (errorPage msg).data = true
    unfold errorPage
    rw [String.data_append, String.data_append, List.append_assoc]
    exact listContains_append_middle _ msg.data _
  · intro c i st hmap
    simp [processConversation, generateHTML, hmap, extractMessages, renderBlocks]

/-- Witness for C6's amended statement: a null-mapping conversation at
concrete stats is written without touching the error counter. -/
theorem c6_amended_error_paths_witness :
    processConversation ⟨"i", "T", none, none, MappingInput.null⟩ 0 ⟨4, 7, 2, 1⟩ true
      = some (⟨4, 7, 3, 1⟩,
              some (processFileName ⟨"i", "T", none, none, MappingInput.null⟩ 0, [])) :=
  c6_amended_error_paths.1 _ 0 _ rfl

/-- Claim C6, counterexample.  The claim asserts that a rendering
exception increments the error counter.  It does not: the `catch` of
`generateHTML` (lines 228-231) only returns the error page — at
concrete stats with `errors = 0`, the state after the catch still has
`errors = 0`, not `1`, even though the error page does contain the
exception's message. -/
theorem c6_claim_counterexample :
    (generateHTMLCatch ⟨1, 2, 3, 0⟩ "boom").1.errors = 0
    ∧ (generateHTMLCatch ⟨1, 2, 3, 0⟩ "boom").1.errors ≠ 0 + 1
    ∧ listContains "boom".data ((generateHTMLCatch ⟨1, 2, 3, 0⟩ "boom").2).data
        = true := by
  refine ⟨rfl, by decide, by decide⟩

end DeepSeek
